import Mathlib

/-!
Verification development for the house-jobs repository: a batch pipeline that
segments job-listing documents into per-listing chunks, sends each chunk to an
LLM, validates the returned JSON against a record schema, enriches validated
records with legislator scores from a spreadsheet, and writes the results.

The network call (OpenAI/Ollama chat completion) and file I/O are external
collaborators; they are modelled as oracle inputs.  Everything else is
translated directly from the Python sources `parser3.py`, `parser4.py` and
`newparser.py`.
-/

set_option maxHeartbeats 1000000

namespace HouseJobs

/-! ## JSON values

A model of the Python values produced by `json.loads`: `None`, `bool`, `int`,
`float` (modelled as a rational; no claim involves float rounding), `str`,
`list`, and `dict` (an insertion-ordered association list, as Python dicts
preserve insertion order).  The array and object spines are their own mutual
inductive types so that all recursion below is structural (hence kernel
computable). -/

mutual
inductive Json where
  | null : Json
  | bool : Bool → Json
  | int : Int → Json
  | float : Rat → Json
  | str : String → Json
  | arr : JsonItems → Json
  | obj : JsonFields → Json

inductive JsonItems where
  | nil : JsonItems
  | cons : Json → JsonItems → JsonItems

inductive JsonFields where
  | nil : JsonFields
  | cons : String → Json → JsonFields → JsonFields
end

/-- Build a JSON array value from a Lean list (literal convenience). -/
def jarr (xs : List Json) : Json :=
  Json.arr (xs.foldr JsonItems.cons JsonItems.nil)

/-- Build a JSON object value from a Lean list of key/value pairs. -/
def jobj (fs : List (String × Json)) : Json :=
  Json.obj (fs.foldr (fun p t => JsonFields.cons p.1 p.2 t) JsonFields.nil)

/-- `'key' in data` for a Python dict. -/
def JsonFields.hasKey : JsonFields → String → Bool
  | .nil, _ => false
  | .cons k _ t, key => k == key || t.hasKey key

/-- `data.get(key)` for a Python dict.  A Python dict has unique keys (for a
duplicate key in the JSON text, `json.loads` keeps only one binding), so
lookup is modelled as first-binding; object literals in this file never
repeat a key. -/
def JsonFields.get : JsonFields → String → Option Json
  | .nil, _ => none
  | .cons k v t, key => if k == key then some v else t.get key

/-! ## `find_job_objects` (parser4.py lines 59-72)

Recursively searches a nested structure for dicts containing the key
`'Post_ID'`.  A matching dict is returned alone (`return [data]`), so its
descendants are not searched; otherwise the dict's values (in insertion
order) or the list's items are searched depth-first and the results
concatenated in encounter order. -/

mutual
def find_job_objects : Json → List Json
  | .obj fields =>
      if fields.hasKey "Post_ID" then [Json.obj fields]
      else findInFields fields
  | .arr items => findInItems items
  | _ => []

def findInFields : JsonFields → List Json
  | .nil => []
  | .cons _ v t => find_job_objects v ++ findInFields t

def findInItems : JsonItems → List Json
  | .nil => []
  | .cons v t => find_job_objects v ++ findInItems t
end

/-! ## The `Job` pydantic model (parser4.py lines 11-28)

`Post_ID` and `Cleaned_Text` are required `str` fields; every other field is
`Optional[...] = None`.  Floats are modelled as rationals. -/

structure Job where
  Post_ID : String
  Posting_Author : Option String := none
  Congress_Number : Option Int := none
  State_District : Option String := none
  Location : Option String := none
  Job_Function : Option String := none
  Title_Parsed : Option String := none
  Office_Type : Option String := none
  Responsibilities : Option (List String) := none
  Qualifications : Option (List String) := none
  Salary_Min : Option Int := none
  Salary_Max : Option Int := none
  Skills_Mentioned : Option (List String) := none
  Equal_Opportunity_Information : Option String := none
  Cleaned_Text : String
  DW_NOMINATE : Option Rat := none
  LES : Option Rat := none
deriving DecidableEq

/-! ### Pydantic v2 lax-mode field validators

`Job.model_validate` runs in pydantic's default (lax) mode:
* a `str` field accepts exactly JSON strings (ints/floats are not coerced);
* an `int` field accepts ints, integral floats, and strings parseable as an
  integer (modelled as optional sign plus digits after trimming whitespace;
  pydantic's underscore-separator corner is not modelled).  Pydantic v2
  rejects `bool` for `int` fields;
* a `float` field accepts ints, floats, and numeric strings (modelled as
  optional sign, digits and an optional fractional part; the exponent form
  corner is not modelled);
* `List[str]` accepts a JSON array whose items are all strings;
* an `Optional[T]` field accepts `null` (and an absent key falls back to the
  default `None`); a present non-null value must satisfy `T`.
Extra keys are ignored (pydantic's default `extra='ignore'`). -/

/-- Digits-only check used by the numeric-string coercions. -/
def allDigits (l : List Char) : Bool := l.all (fun c => '0' ≤ c && c ≤ '9')

/-- Value of a digit list, most significant first. -/
def digitsVal (l : List Char) : Nat :=
  l.foldl (fun acc c => 10 * acc + (c.toNat - '0'.toNat)) 0

/-- Lax `str → int` coercion: optional sign followed by digits. -/
def parseIntStr (s : String) : Option Int :=
  match (s.trim).toList with
  | [] => none
  | '-' :: ds => if ds ≠ [] && allDigits ds then some (-(digitsVal ds : Int)) else none
  | '+' :: ds => if ds ≠ [] && allDigits ds then some ((digitsVal ds : Int)) else none
  | ds => if allDigits ds then some ((digitsVal ds : Int)) else none

/-- Lax `str → float` coercion: optional sign, digits, optional `.digits`. -/
def parseFloatStr (s : String) : Option Rat :=
  let core : List Char → Option Rat := fun ds =>
    match ds.splitOn '.' with
    | [w] => if w ≠ [] && allDigits w then some ((digitsVal w : Rat)) else none
    | [w, f] => if w ≠ [] && f ≠ [] && allDigits w && allDigits f then
        some ((digitsVal w : Rat) + (digitsVal f : Rat) / ((10 : Rat) ^ f.length))
      else none
    | _ => none
  match (s.trim).toList with
  | '-' :: ds => (core ds).map (fun q => -q)
  | '+' :: ds => core ds
  | ds => core ds

/-- Validate a value against a required `str` field (missing key ⇒ error). -/
def vReqStr : Option Json → Option String
  | some (.str s) => some s
  | _ => none

/-- Validate a value against an `Optional[str]` field. -/
def vOptStr : Option Json → Option (Option String)
  | none => some none
  | some .null => some none
  | some (.str s) => some (some s)
  | some _ => none

/-- Lax validation of a single value against `int`. -/
def vIntVal : Json → Option Int
  | .int n => some n
  | .float q => if q.den == 1 then some q.num else none
  | .str s => parseIntStr s
  | _ => none

/-- Validate a value against an `Optional[int]` field. -/
def vOptInt : Option Json → Option (Option Int)
  | none => some none
  | some .null => some none
  | some v => (vIntVal v).map some

/-- Lax validation of a single value against `float`. -/
def vFloatVal : Json → Option Rat
  | .int n => some ((n : Rat))
  | .float q => some q
  | .str s => parseFloatStr s
  | _ => none

/-- Validate a value against an `Optional[float]` field. -/
def vOptFloat : Option Json → Option (Option Rat)
  | none => some none
  | some .null => some none
  | some v => (vFloatVal v).map some

/-- Collect the items of a JSON array as strings, failing on a non-string. -/
def itemsAsStrs : JsonItems → Option (List String)
  | .nil => some []
  | .cons (.str s) t => (itemsAsStrs t).map (fun l => s :: l)
  | .cons _ _ => none

/-- Validate a value against an `Optional[List[str]]` field. -/
def vOptStrList : Option Json → Option (Option (List String))
  | none => some none
  | some .null => some none
  | some (.arr xs) => (itemsAsStrs xs).map some
  | some _ => none

/-- `Job.model_validate` on a dict: every declared field is validated against
its annotation; any field failure fails the whole record (pydantic raises
`ValidationError`). -/
def model_validate_fields (fs : JsonFields) : Option Job :=
  match vReqStr (fs.get "Post_ID"), vOptStr (fs.get "Posting_Author"),
        vOptInt (fs.get "Congress_Number"), vOptStr (fs.get "State_District"),
        vOptStr (fs.get "Location"), vOptStr (fs.get "Job_Function"),
        vOptStr (fs.get "Title_Parsed"), vOptStr (fs.get "Office_Type"),
        vOptStrList (fs.get "Responsibilities"), vOptStrList (fs.get "Qualifications"),
        vOptInt (fs.get "Salary_Min"), vOptInt (fs.get "Salary_Max"),
        vOptStrList (fs.get "Skills_Mentioned"),
        vOptStr (fs.get "Equal_Opportunity_Information"),
        vReqStr (fs.get "Cleaned_Text"), vOptFloat (fs.get "DW_NOMINATE"),
        vOptFloat (fs.get "LES") with
  | some pid, some au, some cn, some sd, some lo, some jf, some tp, some ot,
    some re, some qu, some smin, some smax, some sk, some eo, some ct,
    some dw, some les =>
      some ⟨pid, au, cn, sd, lo, jf, tp, ot, re, qu, smin, smax, sk, eo, ct, dw, les⟩
  | _, _, _, _, _, _, _, _, _, _, _, _, _, _, _, _, _ => none

/-- `Job.model_validate` on an arbitrary value (a non-dict raises). -/
def model_validate : Json → Option Job
  | .obj fs => model_validate_fields fs
  | _ => none

/-! ## Score lookup table (`load_scores_from_excel`, parser4.py lines 32-52 /
parser3.py lines 10-55)

`pd.read_excel` is an external collaborator; the function's logic is modelled
from the row sequence it yields.  A row carries the five columns the code
reads.  The district number is read with `int(...)`; scores are numeric
(rationals here; the NaN corner of a blank spreadsheet cell is not
modelled). -/

structure ScoreRow where
  state : String          -- 'Two-letter state code'
  district : Int          -- 'Congressional district number'
  congress : Int          -- 'Congress number'
  dw_nominate : Rat       -- 'First-dimension DW-NOMINATE score'
  les : Rat               -- 'LES 1.0'
deriving DecidableEq

/-- The scores lookup map: a Python dict from district key to the pair
`(dw_nominate, les)`, as an insertion-ordered association list with unique
keys maintained by `mapInsert`. -/
abbrev ScoresMap := List (String × Rat × Rat)

/-- Python dict lookup (keys are unique by construction). -/
def mapLookup (m : ScoresMap) (k : String) : Option (Rat × Rat) :=
  (m.find? (fun p => p.1 == k)).map (fun p => p.2)

/-- Python dict assignment `m[k] = v`: overwrite in place, or append. -/
def mapInsert (m : ScoresMap) (k : String) (v : Rat × Rat) : ScoresMap :=
  if m.any (fun p => p.1 == k) then
    m.map (fun p => if p.1 == k then (k, v) else p)
  else m ++ [(k, v)]

/-- `df[CONGRESS_COL].max()` over the rows. -/
def maxCongress (rows : List ScoreRow) : Option Int :=
  (rows.map (fun r => r.congress)).foldl
    (fun acc x => match acc with
      | none => some x
      | some m => some (max m x)) none

/-- The district key `f"{row[STATE_COL]}-{int(row[DISTRICT_COL])}"`. -/
def districtKey (r : ScoreRow) : String :=
  r.state ++ "-" ++ toString r.district

/-- `load_scores_from_excel`: keep only the rows of the latest congress, then
insert each into the map in order (later duplicates overwrite). -/
def load_scores_from_excel (rows : List ScoreRow) : ScoresMap :=
  let latest := maxCongress rows
  let df_latest := rows.filter (fun r => some r.congress == latest)
  df_latest.foldl (fun m r => mapInsert m (districtKey r) (r.dw_nominate, r.les)) []

/-! ## Enrichment

parser4.py lines 111-114: sets the two score fields only when
`job.State_District` is truthy (a non-empty string) and is a key of the map;
there is no else branch, so on a miss the fields keep their validated
values. -/

def enrich4 (scores_map : ScoresMap) (job : Job) : Job :=
  match job.State_District with
  | some s =>
      if s ≠ "" then
        match mapLookup scores_map s with
        | some (dw, les) => { job with DW_NOMINATE := some dw, LES := some les }
        | none => job
      else job
  | none => job

/-! parser3.py lines 103-117: the raw dict is enriched in place; on a hit both
keys are set from the map, otherwise (falsy or missing `State_District`, or a
key not in the map) both are explicitly set to `None`.  A non-string truthy
`State_District` can never equal a string key of the map, so `district_key in
scores_map` is false for it (Python would raise `TypeError` for an unhashable
list/dict value there; that corner, caught by the function's broad `except`,
is not modelled). -/

/-- Python truthiness of a JSON value. -/
def jsonTruthy : Json → Bool
  | .null => false
  | .bool b => b
  | .int n => n != 0
  | .float q => q != 0
  | .str s => s ≠ ""
  | .arr .nil => false
  | .arr _ => true
  | .obj .nil => false
  | .obj _ => true

/-- Python dict assignment `d[k] = v` on a JSON object: replace the binding
in place if the key is present, else append. -/
def JsonFields.set : JsonFields → String → Json → JsonFields
  | .nil, key, v => .cons key v .nil
  | .cons k w t, key, v =>
      if k == key then .cons k v t else .cons k w (t.set key v)

/-- The value `scores_map[district_key]` when parser3's hit condition
`district_key and district_key in scores_map` holds, else `none`. -/
def districtHit (scores_map : ScoresMap) (job : JsonFields) : Option (Rat × Rat) :=
  match job.get "State_District" with
  | some (.str s) => if s ≠ "" then mapLookup scores_map s else none
  | _ => none

/-- The per-record enrichment step of parser3's `process_chunk`. -/
def enrich3 (scores_map : ScoresMap) (job : JsonFields) : JsonFields :=
  match districtHit scores_map job with
  | some (dw, les) =>
      (job.set "DW-NOMINATE" (.float dw)).set "LES" (.float les)
  | none =>
      (job.set "DW-NOMINATE" .null).set "LES" .null

/-- The items of a JSON array as a Lean list. -/
def JsonItems.toList : JsonItems → List Json
  | .nil => []
  | .cons v t => v :: t.toList

/-- First list-valued entry of a dict, in insertion order (the `for
key, value in parsed_json.items(): if isinstance(value, list): break` scan
of parser3.py lines 90-95). -/
def firstListValue : JsonFields → Option (List Json)
  | .nil => none
  | .cons _ (Json.arr items) _ => some items.toList
  | .cons _ _ t => firstListValue t

/-- parser3.py lines 88-99: unwrap the decoded response into the candidate
list — a dict yields its first list-valued entry, or itself as a single
candidate when no entry is a list; a list yields its items; anything else
leaves the candidate list empty. -/
def parser3_job_list : Json → List Json
  | .obj fields =>
      match firstListValue fields with
      | some items => items
      | none => [Json.obj fields]
  | .arr items => items.toList
  | _ => []

/-- parser3.py lines 101-118: every candidate that is a dict is enriched in
place and appended to the emitted list — with no check of any identifier
field; non-dict candidates are logged and skipped. -/
def parser3_process_chunk (scores_map : ScoresMap) (parsed_json : Json) :
    List JsonFields :=
  (parser3_job_list parsed_json).filterMap (fun j =>
    match j with
    | .obj fs => some (enrich3 scores_map fs)
    | _ => none)

/-! ## parser4's `process_chunk` retry loop (parser4.py lines 91-129)

The chat-completion call is an external collaborator, modelled as an oracle
giving, per attempt, either a response (already passed through `json.loads`,
with `none` for an undecodable body, which raises `JSONDecodeError`) or an
unexpected exception (network failure etc.), which the broad `except` turns
into an immediate empty return. -/

inductive ChatResult where
  | response : Option Json → ChatResult
  | exn : ChatResult

/-- The list comprehension `[Job.model_validate(item) for item in
job_data_list]`: any item's `ValidationError` fails the whole list. -/
def validateAll : List Json → Option (List Job)
  | [] => some []
  | c :: t =>
      match model_validate c, validateAll t with
      | some j, some js => some (j :: js)
      | _, _ => none

/-- One attempt body after a successful chat call: decode, search for job
objects (`ValueError` if none), validate every candidate, then enrich the
validated jobs.  `none` means a retryable exception was raised. -/
def attemptJobs (scores_map : ScoresMap) (resp : Option Json) : Option (List Job) :=
  match resp with
  | none => none
  | some data =>
      let job_data_list := find_job_objects data
      if job_data_list.isEmpty then none
      else
        match validateAll job_data_list with
        | none => none
        | some validated_jobs => some (validated_jobs.map (enrich4 scores_map))

def MAX_RETRIES : Nat := 3

/-- The retry loop; `fuel` counts remaining attempts and `i` attempts made.
Returns the chunk's jobs and the number of chat calls performed. -/
def process_chunkAux (scores_map : ScoresMap) (responses : Nat → ChatResult) :
    Nat → Nat → List Job × Nat
  | 0, i => ([], i)
  | fuel + 1, i =>
      match responses i with
      | .exn => ([], i + 1)
      | .response r =>
          match attemptJobs scores_map r with
          | some jobs => (jobs, i + 1)
          | none => process_chunkAux scores_map responses fuel (i + 1)

/-- parser4's `process_chunk`, given the oracle of chat responses. -/
def process_chunk (scores_map : ScoresMap) (responses : Nat → ChatResult) : List Job :=
  (process_chunkAux scores_map responses MAX_RETRIES 0).1

/-- Number of chat-completion calls `process_chunk` makes. -/
def process_chunk_calls (scores_map : ScoresMap) (responses : Nat → ChatResult) : Nat :=
  (process_chunkAux scores_map responses MAX_RETRIES 0).2

/-! ## Listing segmenter (`split_into_job_chunks`, parser4.py lines 54-57 /
parser3.py lines 57-60)

`re.split(r'(?=MEM-)', text)` splits `text` with a zero-width boundary at
every position where the literal `MEM-` starts (the regex engine resumes one
character after an empty match, and `MEM-` cannot overlap itself, so every
occurrence position is a split point; a leading occurrence yields an empty
first fragment).  Text is modelled as `List Char`.  `str.strip()` is modelled
over the ASCII whitespace characters (the Unicode-whitespace corner is not
modelled). -/

def memTok : List Char := ['M', 'E', 'M', '-']

/-- Does the text begin with the literal `MEM-`? -/
def memPre (l : List Char) : Bool := l.take 4 == memTok

/-- The scanner behind `re.split(r'(?=MEM-)', ·)`: `cur` is the reversed
current fragment; a boundary closes it and starts the next fragment with the
boundary's first character consumed (the regex engine's empty-match
advance). -/
def splitAux (cur : List Char) : List Char → List (List Char)
  | [] => [cur.reverse]
  | c :: rest =>
      if memPre (c :: rest) then cur.reverse :: splitAux [c] rest
      else splitAux (c :: cur) rest

/-- All fragments of `re.split(r'(?=MEM-)', text)`. -/
def splitMem (text : List Char) : List (List Char) := splitAux [] text

/-- The text up to (exclusive) the first `MEM-` occurrence. -/
def preB : List Char → List Char
  | [] => []
  | c :: rest => if memPre (c :: rest) then [] else c :: preB rest

/-- The fragments after the first one: from each boundary position on, the
scanner restarts with the boundary character consumed. -/
def tailFrags : List Char → List (List Char)
  | [] => []
  | c :: rest => if memPre (c :: rest) then splitAux [c] rest else tailFrags rest

/-- Python `str.isspace` for the ASCII whitespace characters. -/
def isPySpace (c : Char) : Bool :=
  c == ' ' || c == '\t' || c == '\n' || c == '\r' ||
    c == Char.ofNat 11 || c == Char.ofNat 12

/-- Python `str.strip()`. -/
def pystrip (l : List Char) : List Char :=
  ((l.dropWhile isPySpace).reverse.dropWhile isPySpace).reverse

/-- `split_into_job_chunks`: split before every `MEM-`, drop the fragment
before the first occurrence (`chunks[1:]`), strip each chunk, keep the
non-empty ones. -/
def split_into_job_chunks (text : List Char) : List (List Char) :=
  let chunks := splitMem text
  ((chunks.drop 1).map pystrip).filter (fun c => !c.isEmpty)

/-- The listing-ID pattern `MEM-###-##` from the spec's data-model invariant
(newparser.py splits on the regex `MEM-\d{3}-\d{2}`). -/
def matchesMemId (s : String) : Bool :=
  match s.toList with
  | 'M' :: 'E' :: 'M' :: '-' :: d1 :: d2 :: d3 :: '-' :: d4 :: d5 :: [] =>
      allDigits [d1, d2, d3, d4, d5]
  | _ => false

/-! ## Output stage

newparser.py lines 153-170: the combined dataset is written only when it is
non-empty; an empty dataset prints the no-data notice and writes no file.
parser4.py lines 163-167 (`main`): the per-document JSON file is written
unconditionally, with no notice for an empty result set.  Modelled as the
pair (file content written, no-data notice printed). -/

def newparser_main_output {α : Type} (final_dataset : List α) : Option (List α) × Bool :=
  if final_dataset.isEmpty then (none, true) else (some final_dataset, false)

def parser4_main_output (all_jobs : List Job) : Option (List Job) × Bool :=
  (some all_jobs, false)

/-! ## Auxiliary definitions used by the verification

Node counts, wrapper stacks and list nesting used to state totality and
wrapping-invariance of the record search. -/

mutual
/-- Node count of a JSON value, the termination measure of the search. -/
def jsonSize : Json → Nat
  | .arr items => 1 + itemsSize items
  | .obj fields => 1 + fieldsSize fields
  | _ => 1

def itemsSize : JsonItems → Nat
  | .nil => 0
  | .cons v t => jsonSize v + itemsSize t

def fieldsSize : JsonFields → Nat
  | .nil => 0
  | .cons _ v t => jsonSize v + fieldsSize t
end

/-- A single wrapping layer: a one-element list, or a one-key dict. -/
inductive Wrapper where
  | warr : Wrapper
  | wobj : String → Wrapper

def applyWrap : Wrapper → Json → Json
  | .warr, d => jarr [d]
  | .wobj k, d => jobj [(k, d)]

/-- An arbitrary stack of wrapping layers. -/
def applyWraps (ws : List Wrapper) (d : Json) : Json :=
  ws.foldr applyWrap d

/-- `n`-fold one-element-list nesting. -/
def nestArr : Nat → Json → Json
  | 0, d => d
  | n + 1, d => jarr [nestArr n d]

/-! # Lemmas -/

/-! ## The recursive record search -/

mutual
/-- Everything the search collects is an object bearing the identifier key. -/
theorem find_collects_id_objs (d : Json) :
    ∀ j ∈ find_job_objects d, ∃ fs, j = Json.obj fs ∧ fs.hasKey "Post_ID" = true := by
  match d with
  | .obj fields =>
      by_cases h : fields.hasKey "Post_ID"
      · intro j hj
        simp only [find_job_objects, h, if_true, List.mem_singleton] at hj
        exact ⟨fields, hj, h⟩
      · intro j hj
        simp only [find_job_objects, h, if_false, Bool.false_eq_true] at hj
        exact findF_collects_id_objs fields j hj
  | .arr items =>
      intro j hj
      simp only [find_job_objects] at hj
      exact findI_collects_id_objs items j hj
  | .null | .bool _ | .int _ | .float _ | .str _ =>
      intro j hj
      simp [find_job_objects] at hj

theorem findF_collects_id_objs (fs : JsonFields) :
    ∀ j ∈ findInFields fs, ∃ gs, j = Json.obj gs ∧ gs.hasKey "Post_ID" = true := by
  match fs with
  | .nil => intro j hj; simp [findInFields] at hj
  | .cons k v t =>
      intro j hj
      simp only [findInFields, List.mem_append] at hj
      rcases hj with hj | hj
      · exact find_collects_id_objs v j hj
      · exact findF_collects_id_objs t j hj

theorem findI_collects_id_objs (xs : JsonItems) :
    ∀ j ∈ findInItems xs, ∃ gs, j = Json.obj gs ∧ gs.hasKey "Post_ID" = true := by
  match xs with
  | .nil => intro j hj; simp [findInItems] at hj
  | .cons v t =>
      intro j hj
      simp only [findInItems, List.mem_append] at hj
      rcases hj with hj | hj
      · exact find_collects_id_objs v j hj
      · exact findI_collects_id_objs t j hj
end

mutual
/-- The search returns at most one collected object per node. -/
theorem find_length_le (d : Json) : (find_job_objects d).length ≤ jsonSize d := by
  match d with
  | .obj fields =>
      by_cases h : fields.hasKey "Post_ID"
      · simp only [find_job_objects, h, if_true, List.length_singleton, jsonSize]
        omega
      · simp only [find_job_objects, h, Bool.false_eq_true, if_false, jsonSize]
        have := findF_length_le fields
        omega
  | .arr items =>
      simp only [find_job_objects, jsonSize]
      have := findI_length_le items
      omega
  | .null | .bool _ | .int _ | .float _ | .str _ =>
      simp [find_job_objects, jsonSize]

theorem findF_length_le (fs : JsonFields) : (findInFields fs).length ≤ fieldsSize fs := by
  match fs with
  | .nil => simp [findInFields, fieldsSize]
  | .cons k v t =>
      simp only [findInFields, fieldsSize, List.length_append]
      have h1 := find_length_le v
      have h2 := findF_length_le t
      omega

theorem findI_length_le (xs : JsonItems) : (findInItems xs).length ≤ itemsSize xs := by
  match xs with
  | .nil => simp [findInItems, itemsSize]
  | .cons v t =>
      simp only [findInItems, itemsSize, List.length_append]
      have h1 := find_length_le v
      have h2 := findI_length_le t
      omega
end

/-- Wrapping in a one-element list does not change the search result. -/
theorem find_wrap_arr (d : Json) : find_job_objects (jarr [d]) = find_job_objects d := by
  simp [jarr, find_job_objects, findInItems]

/-- Wrapping under any dict key other than the identifier key does not change
the search result. -/
theorem find_wrap_obj (k : String) (d : Json) (hk : k ≠ "Post_ID") :
    find_job_objects (jobj [(k, d)]) = find_job_objects d := by
  have hkey : (JsonFields.cons k d JsonFields.nil).hasKey "Post_ID" = false := by
    simp [JsonFields.hasKey, hk]
  simp [jobj, find_job_objects, hkey, findInFields]

/-- The search result is invariant under any stack of wrappers whose dict
keys avoid the identifier key. -/
theorem find_wraps_invariant (ws : List Wrapper) (d : Json)
    (h : ∀ k, Wrapper.wobj k ∈ ws → k ≠ "Post_ID") :
    find_job_objects (applyWraps ws d) = find_job_objects d := by
  induction ws with
  | nil => rfl
  | cons w ws ih =>
      have hws : ∀ k, Wrapper.wobj k ∈ ws → k ≠ "Post_ID" := by
        intro k hkw; exact h k (List.mem_cons_of_mem _ hkw)
      have ihw := ih hws
      cases w with
      | warr =>
          show find_job_objects (jarr [applyWraps ws d]) = _
          rw [find_wrap_arr, ihw]
      | wobj k =>
          show find_job_objects (jobj [(k, applyWraps ws d)]) = _
          rw [find_wrap_obj k _ (h k (List.mem_cons_self _ _)), ihw]

/-- The search penetrates list nesting of any depth. -/
theorem find_nestArr (n : Nat) (d : Json) :
    find_job_objects (nestArr n d) = find_job_objects d := by
  induction n with
  | zero => rfl
  | succ n ih => rw [nestArr, find_wrap_arr, ih]

/-! ## Validation and the retry loop -/

/-- A required-`str` validator succeeds only on a present string value. -/
theorem vReqStr_some (o : Option Json) (s : String) (h : vReqStr o = some s) :
    o = some (Json.str s) := by
  match o with
  | none => simp [vReqStr] at h
  | some .null | some (.bool _) | some (.int _) | some (.float _)
  | some (.arr _) | some (.obj _) => simp [vReqStr] at h
  | some (.str t) => simp [vReqStr] at h; rw [h]

/-- A validated record's identifier is the candidate's `Post_ID` string. -/
theorem model_validate_fields_pid (fs : JsonFields) (j : Job)
    (h : model_validate_fields fs = some j) :
    fs.get "Post_ID" = some (Json.str j.Post_ID) := by
  unfold model_validate_fields at h
  split at h
  · next pid au cn sd lo jf tp ot re qu smin smax sk eo ct dw les
        hpid hau hcn hsd hlo hjf htp hot hre hqu hsmin hsmax hsk heo hct hdw hles =>
      cases h
      exact vReqStr_some _ _ hpid
  · exact absurd h (by simp)

/-- A validated candidate is an object carrying its record's identifier. -/
theorem model_validate_pid (c : Json) (j : Job) (h : model_validate c = some j) :
    ∃ fs, c = Json.obj fs ∧ fs.get "Post_ID" = some (Json.str j.Post_ID) := by
  match c with
  | .obj fs => exact ⟨fs, rfl, model_validate_fields_pid fs j h⟩
  | .null | .bool _ | .int _ | .float _ | .str _ | .arr _ =>
      simp [model_validate] at h

/-- Enrichment never changes the identifier. -/
theorem enrich4_post_id (m : ScoresMap) (job : Job) :
    (enrich4 m job).Post_ID = job.Post_ID := by
  unfold enrich4
  split
  · split
    · split
      · rfl
      · rfl
    · rfl
  · rfl

/-- Every member of a successfully validated batch comes from a candidate. -/
theorem validateAll_mem (l : List Json) (js : List Job) (h : validateAll l = some js) :
    ∀ j ∈ js, ∃ c ∈ l, model_validate c = some j := by
  induction l generalizing js with
  | nil =>
      simp only [validateAll, Option.some_inj] at h
      subst h; intro j hj; simp at hj
  | cons c t ih =>
      unfold validateAll at h
      match hc : model_validate c, ht : validateAll t with
      | some j0, some js0 =>
          rw [hc, ht] at h
          cases h
          intro j hj
          rcases List.mem_cons.mp hj with rfl | hj
          · exact ⟨c, List.mem_cons_self _ _, hc⟩
          · rcases ih js0 ht j hj with ⟨c', hc', hv⟩
            exact ⟨c', List.mem_cons_of_mem _ hc', hv⟩
      | some _, none => rw [hc, ht] at h; cases h
      | none, some _ => rw [hc, ht] at h; cases h
      | none, none => rw [hc, ht] at h; cases h

/-- A successful batch validation validates every candidate. -/
theorem validateAll_forall (l : List Json) (js : List Job) (h : validateAll l = some js) :
    ∀ c ∈ l, ∃ j, model_validate c = some j := by
  induction l generalizing js with
  | nil => intro c hc; simp at hc
  | cons c0 t ih =>
      unfold validateAll at h
      match hc : model_validate c0, ht : validateAll t with
      | some j0, some js0 =>
          intro c hc'
          rcases List.mem_cons.mp hc' with rfl | hc'
          · exact ⟨j0, hc⟩
          · exact ih js0 ht c hc'
      | some _, none => rw [hc, ht] at h; cases h
      | none, some _ => rw [hc, ht] at h; cases h
      | none, none => rw [hc, ht] at h; cases h

/-- One invalid candidate fails the whole batch validation. -/
theorem validateAll_none (l : List Json) (c : Json) (hc : c ∈ l)
    (hv : model_validate c = none) : validateAll l = none := by
  induction l with
  | nil => simp at hc
  | cons c0 t ih =>
      rcases List.mem_cons.mp hc with rfl | hc'
      · unfold validateAll; rw [hv]
      · unfold validateAll
        rw [ih hc']
        match model_validate c0 with
        | some _ => rfl
        | none => rfl

/-- Any job the retry loop returns was produced by one of the attempts. -/
theorem process_chunkAux_mem (scores : ScoresMap) (responses : Nat → ChatResult)
    (fuel i : Nat) (job : Job)
    (h : job ∈ (process_chunkAux scores responses fuel i).1) :
    ∃ k r jobs, i ≤ k ∧ k < i + fuel ∧ responses k = ChatResult.response r ∧
      attemptJobs scores r = some jobs ∧ job ∈ jobs := by
  induction fuel generalizing i with
  | zero => simp [process_chunkAux] at h
  | succ fuel ih =>
      unfold process_chunkAux at h
      match hr : responses i with
      | .exn => rw [hr] at h; simp at h
      | .response r =>
          rw [hr] at h
          dsimp only at h
          match ha : attemptJobs scores r with
          | some jobs =>
              rw [ha] at h
              dsimp only at h
              exact ⟨i, r, jobs, Nat.le_refl i, by omega, hr, ha, h⟩
          | none =>
              rw [ha] at h
              dsimp only at h
              rcases ih (i + 1) h with ⟨k, r', jobs, hk1, hk2, hk3, hk4, hk5⟩
              exact ⟨k, r', jobs, by omega, by omega, hk3, hk4, hk5⟩

/-- A successful attempt's jobs are enriched validated candidates of the
decoded response. -/
theorem attemptJobs_mem (scores : ScoresMap) (r : Option Json) (jobs : List Job)
    (h : attemptJobs scores r = some jobs) (job : Job) (hj : job ∈ jobs) :
    ∃ data, r = some data ∧
      ∃ c ∈ find_job_objects data, ∃ j0, model_validate c = some j0 ∧
        job = enrich4 scores j0 := by
  match r with
  | none => simp [attemptJobs] at h
  | some data =>
      refine ⟨data, rfl, ?_⟩
      unfold attemptJobs at h
      dsimp only at h
      by_cases he : (find_job_objects data).isEmpty
      · rw [if_pos he] at h; cases h
      · rw [if_neg he] at h
        match hv : validateAll (find_job_objects data) with
        | none => rw [hv] at h; cases h
        | some validated =>
            rw [hv] at h
            dsimp only at h
            cases h
            rcases List.mem_map.mp hj with ⟨j0, hj0, rfl⟩
            rcases validateAll_mem _ _ hv j0 hj0 with ⟨c, hc, hcv⟩
            exact ⟨c, hc, j0, hcv, rfl⟩

/-- If every attempt in the window fails retryably, the loop returns empty
after making every remaining call. -/
theorem process_chunkAux_all_fail (scores : ScoresMap) (responses : Nat → ChatResult)
    (fuel : Nat) : ∀ i,
    (∀ k, i ≤ k → k < i + fuel → ∃ r, responses k = ChatResult.response r ∧
        attemptJobs scores r = none) →
    process_chunkAux scores responses fuel i = ([], i + fuel) := by
  induction fuel with
  | zero => intro i _; simp [process_chunkAux]
  | succ fuel ih =>
      intro i hall
      rcases hall i (Nat.le_refl i) (by omega) with ⟨r, hr, ha⟩
      unfold process_chunkAux
      rw [hr]
      dsimp only
      rw [ha]
      have := ih (i + 1) (fun k hk1 hk2 => hall k (by omega) (by omega))
      rw [this]
      have harith : i + 1 + fuel = i + (fuel + 1) := by omega
      rw [harith]

/-! ## The segmenter -/

/-- `memPre` unfolded to a propositional equation. -/
theorem memPre_eq (l : List Char) : memPre l = true ↔ l.take 4 = memTok := by
  simp [memPre]

/-- A text beginning with the token has at least the token's four characters. -/
theorem memPre_length (l : List Char) (h : memPre l = true) : 4 ≤ l.length := by
  rw [memPre_eq] at h
  have := congrArg List.length h
  simp only [List.length_take, memTok, List.length_cons, List.length_nil] at this
  omega

/-- A boundary stays a boundary when text is appended. -/
theorem memPre_append (x y : List Char) (h : memPre x = true) :
    memPre (x ++ y) = true := by
  have hlen := memPre_length x h
  rw [memPre_eq] at h ⊢
  rw [List.take_append_of_le_length hlen, h]

/-- The scanner's fragments concatenate back to the scanned text. -/
theorem splitAux_join (rest : List Char) : ∀ cur,
    (splitAux cur rest).flatten = cur.reverse ++ rest := by
  induction rest with
  | nil => intro cur; simp [splitAux]
  | cons c rest ih =>
      intro cur
      by_cases h : memPre (c :: rest)
      · unfold splitAux
        rw [if_pos h, List.flatten_cons, ih [c]]
        simp
      · unfold splitAux
        rw [if_neg h, ih (c :: cur)]
        simp

/-- The scanner's first fragment is the scanned prefix plus the text up to
the next boundary; the rest are the boundary-to-boundary fragments. -/
theorem splitAux_eq (rest : List Char) : ∀ cur,
    splitAux cur rest = (cur.reverse ++ preB rest) :: tailFrags rest := by
  induction rest with
  | nil => intro cur; simp [splitAux, preB, tailFrags]
  | cons c rest ih =>
      intro cur
      by_cases h : memPre (c :: rest)
      · simp [splitAux, preB, tailFrags, h]
      · simp only [splitAux, preB, tailFrags, h, if_false, Bool.false_eq_true]
        rw [ih (c :: cur)]
        simp

/-- `preB text` is exactly the content before the first boundary: no
boundary starts inside it, and it either ends at a boundary or exhausts the
text. -/
theorem preB_first (text : List Char) :
    (∀ j, j < (preB text).length → memPre (text.drop j) = false) ∧
    (memPre (text.drop (preB text).length) = true ∨ preB text = text) := by
  induction text with
  | nil =>
      constructor
      · intro j hj; simp [preB] at hj
      · right; rfl
  | cons c rest ih =>
      by_cases h : memPre (c :: rest)
      · constructor
        · intro j hj; simp [preB, h] at hj
        · left
          have hp : preB (c :: rest) = [] := by simp [preB, h]
          rw [hp]
          exact h
      · constructor
        · intro j hj
          simp only [preB, h, if_false, Bool.false_eq_true, List.length_cons] at hj
          match j with
          | 0 => simpa using h
          | j' + 1 =>
              rw [List.drop_succ_cons]
              exact ih.1 j' (by omega)
        · simp only [preB, h, if_false, Bool.false_eq_true, List.length_cons,
            List.drop_succ_cons]
          rcases ih.2 with h2 | h2
          · left; exact h2
          · right; rw [h2]

/-- A text whose first character is not `M` starts no boundary. -/
theorem memPre_head_ne (c : Char) (x : List Char) (hc : c ≠ 'M') :
    memPre (c :: x) = false := by
  apply Bool.eq_false_iff.mpr
  rw [Ne, memPre_eq]
  intro h
  have h4 : (c :: x).take 4 = c :: x.take 3 := rfl
  rw [h4] at h
  unfold memTok at h
  injection h with h1 _
  exact hc h1

/-- A text whose second character is not `E` starts no boundary. -/
theorem memPre_second_ne (c : Char) (x : List Char) (hc : c ≠ 'E') :
    memPre ('M' :: c :: x) = false := by
  apply Bool.eq_false_iff.mpr
  rw [Ne, memPre_eq]
  intro h
  have h4 : ('M' :: c :: x).take 4 = 'M' :: c :: x.take 2 := rfl
  rw [h4] at h
  unfold memTok at h
  injection h with _ h2
  injection h2 with h2 _
  exact hc h2

/-- On a boundary, the fragment the scanner opens starts with the token. -/
theorem preB_head (c : Char) (rest : List Char) (h : memPre (c :: rest) = true) :
    (c :: preB rest).take 4 = memTok := by
  rw [memPre_eq] at h
  match rest with
  | [] => simp [memTok] at h
  | [a] =>
      have : ((c :: [a]).take 4).length = 2 := rfl
      rw [h] at this
      simp [memTok] at this
  | [a, b] =>
      have : ((c :: [a, b]).take 4).length = 3 := rfl
      rw [h] at this
      simp [memTok] at this
  | a :: b :: d :: rest' =>
      have h4 : (c :: a :: b :: d :: rest').take 4 = [c, a, b, d] := rfl
      rw [h4] at h
      unfold memTok at h
      obtain ⟨rfl, rfl, rfl, rfl⟩ : c = 'M' ∧ a = 'E' ∧ b = 'M' ∧ d = '-' := by
        injection h with h1 h
        injection h with h2 h
        injection h with h3 h
        injection h with h5 _
        exact ⟨h1, h2, h3, h5⟩
      have e1 : memPre ('E' :: 'M' :: '-' :: rest') = false :=
        memPre_head_ne 'E' _ (by decide)
      have e2 : memPre ('M' :: '-' :: rest') = false :=
        memPre_second_ne '-' _ (by decide)
      have e3 : memPre ('-' :: rest') = false :=
        memPre_head_ne '-' _ (by decide)
      simp only [preB, e1, e2, e3, Bool.false_eq_true, if_false]
      rfl

/-- Every fragment after the first starts with the token `MEM-`. -/
theorem tailFrags_take4 (rest : List Char) :
    ∀ f ∈ tailFrags rest, f.take 4 = memTok := by
  induction rest with
  | nil => intro f hf; simp [tailFrags] at hf
  | cons c rest ih =>
      intro f hf
      by_cases h : memPre (c :: rest)
      · rw [tailFrags, if_pos h, splitAux_eq] at hf
        rcases List.mem_cons.mp hf with rfl | hf
        · exact preB_head c rest h
        · exact ih f hf

      · rw [tailFrags, if_neg h] at hf
        exact ih f hf

/-- No boundary starts strictly inside any fragment the scanner emits,
provided none starts strictly inside the already-scanned part. -/
theorem splitAux_no_internal (rest : List Char) : ∀ cur,
    (∀ j, 1 ≤ j → j < cur.length → memPre ((cur.reverse ++ rest).drop j) = false) →
    ∀ f ∈ splitAux cur rest, ∀ j, 1 ≤ j → memPre (f.drop j) = false := by
  induction rest with
  | nil =>
      intro cur hinv f hf j hj
      rw [splitAux, List.mem_singleton] at hf
      subst hf
      rcases Nat.lt_or_ge j cur.length with hlt | hge
      · have := hinv j hj (by simpa using hlt)
        rwa [List.append_nil] at this
      · have : cur.reverse.drop j = [] := by
          apply List.drop_eq_nil_of_le
          simpa using hge
        rw [this]
        rfl
  | cons c rest ih =>
      intro cur hinv f hf j hj
      by_cases h : memPre (c :: rest)
      · rw [splitAux, if_pos h] at hf
        rcases List.mem_cons.mp hf with rfl | hf
        · rcases Nat.lt_or_ge j cur.length with hlt | hge
          · apply Bool.eq_false_iff.mpr
            intro hb
            have hmono : memPre (cur.reverse.drop j ++ (c :: rest)) = true :=
              memPre_append _ _ hb
            have hsplit : (cur.reverse ++ (c :: rest)).drop j
                = cur.reverse.drop j ++ (c :: rest) :=
              List.drop_append_of_le_length (by simpa using Nat.le_of_lt hlt)
            have hfalse := hinv j hj (by simpa using hlt)
            rw [hsplit] at hfalse
            rw [hfalse] at hmono
            cases hmono
          · have hnil : cur.reverse.drop j = [] := by
              apply List.drop_eq_nil_of_le
              simpa using hge
            rw [hnil]
            rfl
        · exact ih [c] (by intro j hj1 hj2; simp at hj1 hj2; omega) f hf j hj
      · rw [splitAux, if_neg h] at hf
        refine ih (c :: cur) ?_ f hf j hj
        intro i hi1 hi2
        have hlist : (c :: cur).reverse ++ rest = cur.reverse ++ (c :: rest) := by
          simp
        rw [hlist]
        rcases Nat.lt_or_ge i cur.length with hlt | hge
        · exact hinv i hi1 (by simpa using hlt)
        · have hieq : i = cur.length := by
            simp only [List.length_cons] at hi2
            omega
          have hdrop : (cur.reverse ++ (c :: rest)).drop i = c :: rest := by
            rw [hieq, ← List.length_reverse cur]
            exact List.drop_left cur.reverse (c :: rest)
          rw [hdrop]
          exact Bool.eq_false_iff.mpr h

/-- Dropping a satisfied prefix twice is the same as dropping it once. -/
theorem dropWhile_dropWhile (p : Char → Bool) (l : List Char) :
    (l.dropWhile p).dropWhile p = l.dropWhile p := by
  induction l with
  | nil => rfl
  | cons c t ih =>
      by_cases h : p c
      · rw [List.dropWhile_cons_of_pos h, ih]
      · rw [List.dropWhile_cons_of_neg h, List.dropWhile_cons_of_neg h]

/-- A prefix of a left-trimmed list is itself left-trimmed. -/
theorem dropWhile_eq_self_of_head (p : Char → Bool) (l : List Char)
    (h : l.dropWhile p = l) (x t : List Char) (hxt : l = x ++ t) :
    x.dropWhile p = x := by
  match x with
  | [] => rfl
  | c :: y =>
      have hc : ¬ p c = true := by
        intro hpc
        subst hxt
        rw [List.cons_append, List.dropWhile_cons_of_pos hpc] at h
        have hlen := congrArg List.length h
        have hle := (List.dropWhile_sublist (l := y ++ t) (p := p)).length_le
        simp only [List.length_cons] at hlen
        omega
      exact List.dropWhile_cons_of_neg hc

/-- `str.strip()` splits the input into all-space ends around the result. -/
theorem pystrip_decomp (l : List Char) :
    ∃ w1 w2, (∀ c ∈ w1, isPySpace c = true) ∧ (∀ c ∈ w2, isPySpace c = true) ∧
      l = w1 ++ (pystrip l ++ w2) ∧ l.dropWhile isPySpace = pystrip l ++ w2 := by
  refine ⟨l.takeWhile isPySpace,
    ((l.dropWhile isPySpace).reverse.takeWhile isPySpace).reverse, ?_, ?_, ?_, ?_⟩
  · intro c hc; exact List.mem_takeWhile_imp hc
  · intro c hc
    rw [List.mem_reverse] at hc
    exact List.mem_takeWhile_imp hc
  · have key := congrArg List.reverse
      (List.takeWhile_append_dropWhile (p := isPySpace)
        (l := (l.dropWhile isPySpace).reverse))
    rw [List.reverse_append, List.reverse_reverse] at key
    conv_lhs =>
      rw [← List.takeWhile_append_dropWhile (p := isPySpace) (l := l), key.symm]
    rfl
  · have key := congrArg List.reverse
      (List.takeWhile_append_dropWhile (p := isPySpace)
        (l := (l.dropWhile isPySpace).reverse))
    rw [List.reverse_append, List.reverse_reverse] at key
    exact key.symm

/-- `str.strip()` is idempotent. -/
theorem pystrip_idem (l : List Char) : pystrip (pystrip l) = pystrip l := by
  have ha := dropWhile_dropWhile isPySpace l
  rcases pystrip_decomp l with ⟨w1, w2, _, _, _, hsuffix⟩
  have hhead : (pystrip l).dropWhile isPySpace = pystrip l :=
    dropWhile_eq_self_of_head isPySpace (l.dropWhile isPySpace) ha
      (pystrip l) w2 hsuffix
  show ((((pystrip l).dropWhile isPySpace).reverse).dropWhile isPySpace).reverse
      = pystrip l
  rw [hhead]
  show (((l.dropWhile isPySpace).reverse.dropWhile
      isPySpace).reverse.reverse.dropWhile isPySpace).reverse = pystrip l
  rw [List.reverse_reverse, dropWhile_dropWhile]
  rfl

/-- `str.strip()` keeps a leading `MEM-` token. -/
theorem pystrip_take4 (f : List Char) (h : f.take 4 = memTok) :
    (pystrip f).take 4 = memTok := by
  have hf : f = memTok ++ f.drop 4 := by
    conv_lhs => rw [← List.take_append_drop 4 f]
    rw [h]
  have hl : f.dropWhile isPySpace = f := by
    conv_lhs => rw [hf]
    conv_rhs => rw [hf]
    exact List.dropWhile_cons_of_neg (by intro hx; cases hx)
  show ((f.dropWhile isPySpace).reverse.dropWhile isPySpace).reverse.take 4 = memTok
  rw [hl]
  conv_lhs => rw [hf]
  rw [List.reverse_append, List.dropWhile_append]
  by_cases he : (((f.drop 4).reverse).dropWhile isPySpace).isEmpty
  · rw [if_pos he]
    rfl
  · rw [if_neg he, List.reverse_append, List.reverse_reverse,
      List.take_append_of_le_length (by decide)]
    rfl

/-- Fragments after the first, in terms of `split_into_job_chunks`. -/
theorem split_chunks_eq (text : List Char) :
    split_into_job_chunks text =
      ((tailFrags text).map pystrip).filter (fun c => !c.isEmpty) := by
  unfold split_into_job_chunks splitMem
  rw [splitAux_eq]
  rfl

/-- Each emitted chunk is the strip of a fragment after the first. -/
theorem chunk_from_frag (text : List Char) (c : List Char)
    (hc : c ∈ split_into_job_chunks text) :
    ∃ f ∈ tailFrags text, c = pystrip f ∧ c ≠ [] := by
  rw [split_chunks_eq] at hc
  rcases List.mem_filter.mp hc with ⟨hmem, hne⟩
  rcases List.mem_map.mp hmem with ⟨f, hf, rfl⟩
  refine ⟨f, hf, rfl, ?_⟩
  simpa using hne

/-! ## The score lookup table -/

/-- Dict lookup after dict assignment. -/
theorem mapLookup_insert (m : ScoresMap) (k kq : String) (v : Rat × Rat) :
    mapLookup (mapInsert m k v) kq = if kq = k then some v else mapLookup m kq := by
  by_cases hk : m.any (fun p => p.1 == k)
  · unfold mapInsert
    rw [if_pos hk, mapLookup, List.find?_map]
    rcases List.any_eq_true.mp hk with ⟨q0, hq0, hq0k⟩
    by_cases hkq : kq = k
    · subst hkq
      have hfun : ((fun p => p.1 == kq) ∘
          (fun p => if p.1 == kq then (kq, v) else p)) = fun p => p.1 == kq := by
        funext p
        by_cases hp : p.1 == kq
        · simp [Function.comp, hp]
        · simp [Function.comp, hp]
      rw [hfun, if_pos rfl]
      have hex : ∃ x ∈ m, x.1 == kq := ⟨q0, hq0, hq0k⟩
      rcases Option.isSome_iff_exists.mp (List.find?_isSome.mpr hex) with ⟨q, hq⟩
      have hqk := List.find?_some hq
      have hq1 : q.1 = kq := by simpa using hqk
      rw [hq]
      simp [hq1]
    · have hfun : ((fun p => p.1 == kq) ∘
          (fun p => if p.1 == k then (k, v) else p)) = fun p => p.1 == kq := by
        funext p
        by_cases hp : p.1 == k
        · have : p.1 = k := by simpa using hp
          simp [Function.comp, hp, this, Ne.symm hkq, hkq]
        · simp [Function.comp, hp]
      rw [hfun, if_neg hkq, mapLookup]
      cases hq : m.find? (fun p => p.1 == kq) with
      | none => rfl
      | some q =>
          have hqk := List.find?_some hq
          have hq1 : q.1 = kq := by simpa using hqk
          have hqne : ¬ q.1 = k := by rw [hq1]; exact hkq
          simp [hqne]
  · unfold mapInsert
    rw [if_neg hk, mapLookup, List.find?_append]
    by_cases hkq : kq = k
    · subst hkq
      have hnone : m.find? (fun p => p.1 == kq) = none := by
        rw [List.find?_eq_none]
        intro x hx hxk
        exact hk (List.any_eq_true.mpr ⟨x, hx, hxk⟩)
      rw [hnone, Option.none_or, if_pos rfl]
      simp [List.find?_cons]
    · have hone : [(k, v)].find? (fun p => p.1 == kq) = none := by
        simp only [List.find?_cons]
        rw [show (k == kq) = false from beq_eq_false_iff_ne.mpr (Ne.symm hkq)]
        rfl
      rw [hone, Option.or_none, mapLookup, if_neg hkq]


/-- Lookup through the insertion fold of the score rows: the last row whose
key matches wins; keys no row matches fall through to the initial map. -/
theorem mapLookup_fold (rows : List ScoreRow) : ∀ (m : ScoresMap) (k : String),
    mapLookup (rows.foldl
        (fun m r => mapInsert m (districtKey r) (r.dw_nominate, r.les)) m) k =
      match rows.reverse.find? (fun r => districtKey r == k) with
      | some r => some (r.dw_nominate, r.les)
      | none => mapLookup m k := by
  induction rows with
  | nil => intro m k; rfl
  | cons r rows ih =>
      intro m k
      rw [List.foldl_cons, ih, List.reverse_cons, List.find?_append]
      cases hfind : rows.reverse.find? (fun s => districtKey s == k) with
      | some s => rfl
      | none =>
          rw [Option.none_or, mapLookup_insert]
          by_cases hrk : (districtKey r == k) = true
          · have hkr : k = districtKey r := (beq_iff_eq.mp hrk).symm
            rw [if_pos hkr]
            have hone : [r].find? (fun s => districtKey s == k) = some r := by
              simp [List.find?_cons, hrk]
            rw [hone]
          · have hkr : ¬ k = districtKey r := by
              intro hx
              exact hrk (beq_iff_eq.mpr hx.symm)
            rw [if_neg hkr]
            have hone : [r].find? (fun s => districtKey s == k) = none := by
              simp only [List.find?_cons]
              rw [Bool.eq_false_iff.mpr hrk]
              rfl
            rw [hone]


/-! ## Enrichment -/

/-- Reading back the key just assigned. -/
theorem JsonFields.get_set_same (fs : JsonFields) (key : String) (v : Json) :
    (fs.set key v).get key = some v := by
  match fs with
  | .nil => simp [JsonFields.set, JsonFields.get]
  | .cons k w t =>
      by_cases h : k == key
      · simp [JsonFields.set, h, JsonFields.get]
      · simp only [JsonFields.set, h, Bool.false_eq_true, if_false, JsonFields.get]
        exact JsonFields.get_set_same t key v

/-- Assignment does not disturb other keys. -/
theorem JsonFields.get_set_other (fs : JsonFields) (key keyq : String) (v : Json)
    (hne : ¬ key = keyq) : (fs.set key v).get keyq = fs.get keyq := by
  match fs with
  | .nil =>
      simp only [JsonFields.set, JsonFields.get]
      rw [if_neg (by simpa using hne)]
  | .cons k w t =>
      by_cases h : k == key
      · simp only [JsonFields.set, h, if_true, JsonFields.get]
        have hk : k = key := by simpa using h
        rw [if_neg (by rw [hk]; simpa using hne), if_neg (by rw [hk]; simpa using hne)]
      · simp only [JsonFields.set, h, Bool.false_eq_true, if_false, JsonFields.get]
        by_cases hq : k == keyq
        · rw [if_pos hq, if_pos hq]
        · rw [if_neg hq, if_neg hq]
          exact JsonFields.get_set_other t key keyq v hne

/-- parser3's enrichment always leaves both score keys present: map values on
a hit, explicit nulls otherwise. -/
theorem enrich3_spec (m : ScoresMap) (fs : JsonFields) :
    ((enrich3 m fs).get "DW-NOMINATE").isSome = true ∧
    ((enrich3 m fs).get "LES").isSome = true ∧
    (∀ dw les, districtHit m fs = some (dw, les) →
        (enrich3 m fs).get "DW-NOMINATE" = some (Json.float dw) ∧
        (enrich3 m fs).get "LES" = some (Json.float les)) ∧
    (districtHit m fs = none →
        (enrich3 m fs).get "DW-NOMINATE" = some Json.null ∧
        (enrich3 m fs).get "LES" = some Json.null) := by
  have hLD : ¬ ("LES" : String) = "DW-NOMINATE" := by decide
  cases hhit : districtHit m fs with
  | some p =>
      rcases p with ⟨dw, les⟩
      have he : enrich3 m fs =
          (fs.set "DW-NOMINATE" (Json.float dw)).set "LES" (Json.float les) := by
        unfold enrich3
        rw [hhit]
      constructor
      · rw [he, JsonFields.get_set_other _ _ _ _ hLD, JsonFields.get_set_same]
        rfl
      constructor
      · rw [he, JsonFields.get_set_same]
        rfl
      constructor
      · intro dw2 les2 hh2
        obtain ⟨rfl, rfl⟩ : dw = dw2 ∧ les = les2 := by simpa using hh2
        constructor
        · rw [he, JsonFields.get_set_other _ _ _ _ hLD, JsonFields.get_set_same]
        · rw [he, JsonFields.get_set_same]
      · intro hh2
        simp at hh2
  | none =>
      have he : enrich3 m fs = (fs.set "DW-NOMINATE" Json.null).set "LES" Json.null := by
        unfold enrich3
        rw [hhit]
      constructor
      · rw [he, JsonFields.get_set_other _ _ _ _ hLD, JsonFields.get_set_same]
        rfl
      constructor
      · rw [he, JsonFields.get_set_same]
        rfl
      constructor
      · intro dw2 les2 hh2
        simp at hh2
      · intro _
        constructor
        · rw [he, JsonFields.get_set_other _ _ _ _ hLD, JsonFields.get_set_same]
        · rw [he, JsonFields.get_set_same]

/-- parser4's enrichment on a hit: both fields set from the map. -/
theorem enrich4_hit (m : ScoresMap) (job : Job) (s : String) (dw les : Rat)
    (hs : job.State_District = some s) (hne : ¬ s = "")
    (hl : mapLookup m s = some (dw, les)) :
    enrich4 m job = { job with DW_NOMINATE := some dw, LES := some les } := by
  unfold enrich4
  rw [hs]
  dsimp only
  rw [if_pos hne, hl]

/-- parser4's enrichment on a miss or absent key: the record is returned
unchanged (there is no else branch). -/
theorem enrich4_miss (m : ScoresMap) (job : Job)
    (h : job.State_District = none ∨
      ∃ s, job.State_District = some s ∧ (s = "" ∨ mapLookup m s = none)) :
    enrich4 m job = job := by
  unfold enrich4
  rcases h with h | ⟨s, hs, h⟩
  · rw [h]
  · rw [hs]
    dsimp only
    rcases h with rfl | h
    · rw [if_neg (by simp)]
    · by_cases hne : s ≠ ""
      · rw [if_pos hne, h]
      · rw [if_neg hne]

/-! ## Retry-loop step equations and chunk-level transfer -/

/-- One retryable failure consumes one attempt. -/
theorem process_chunkAux_fail_step (scores : ScoresMap) (responses : Nat → ChatResult)
    (fuel i : Nat) (r : Option Json)
    (h : responses i = ChatResult.response r) (hf : attemptJobs scores r = none) :
    process_chunkAux scores responses (fuel + 1) i =
      process_chunkAux scores responses fuel (i + 1) := by
  show (match responses i with
    | ChatResult.exn => (([] : List Job), i + 1)
    | ChatResult.response r =>
      match attemptJobs scores r with
      | some jobs => (jobs, i + 1)
      | none => process_chunkAux scores responses fuel (i + 1)) = _
  rw [h]
  dsimp only
  rw [hf]

/-- A successful attempt returns its jobs and stops. -/
theorem process_chunkAux_ok_step (scores : ScoresMap) (responses : Nat → ChatResult)
    (fuel i : Nat) (r : Option Json) (jobs : List Job)
    (h : responses i = ChatResult.response r) (hs : attemptJobs scores r = some jobs) :
    process_chunkAux scores responses (fuel + 1) i = (jobs, i + 1) := by
  show (match responses i with
    | ChatResult.exn => (([] : List Job), i + 1)
    | ChatResult.response r =>
      match attemptJobs scores r with
      | some jobs => (jobs, i + 1)
      | none => process_chunkAux scores responses fuel (i + 1)) = _
  rw [h]
  dsimp only
  rw [hs]

/-- No boundary starts strictly inside an emitted chunk. -/
theorem chunk_no_internal (text c : List Char)
    (hc : c ∈ split_into_job_chunks text) :
    ∀ j, 1 ≤ j → memPre (c.drop j) = false := by
  rcases chunk_from_frag text c hc with ⟨f, hf, rfl, hne⟩
  have hmem : f ∈ splitAux [] text := by
    rw [splitAux_eq]
    exact List.mem_cons_of_mem _ hf
  have hni : ∀ j, 1 ≤ j → memPre (f.drop j) = false :=
    splitAux_no_internal text [] (by intro j hj1 hj2; simp at hj2) f hmem
  intro j hj
  apply Bool.eq_false_iff.mpr
  intro hb
  rcases pystrip_decomp f with ⟨w1, w2, _, _, hdec, _⟩
  have hjlen : j ≤ (pystrip f).length := by
    have h4 := memPre_length _ hb
    rw [List.length_drop] at h4
    omega
  have hdrop : f.drop (w1.length + j) = (pystrip f).drop j ++ w2 := by
    conv_lhs => rw [hdec]
    rw [List.drop_append j]
    exact List.drop_append_of_le_length hjlen
  have hfb : memPre (f.drop (w1.length + j)) = true := by
    rw [hdrop]
    exact memPre_append _ _ hb
  have hfx := hni (w1.length + j) (by omega)
  rw [hfx] at hfb
  cases hfb

/-! # Claims -/

/-- Claim C1: the validator's recursive search returns a matching object alone
without searching its descendants; collects only objects bearing the
identifier field; decomposes lists and non-matching objects depth-first in
encounter order; and is invariant under any stack of single-element-list or
non-identifier-key dict wrappers, hence extracts the same objects regardless
of wrapping depth. -/
theorem claim1_recursive_search (fields : JsonFields) (d : Json)
    (ws : List Wrapper) (hws : ∀ k, Wrapper.wobj k ∈ ws → ¬ k = "Post_ID") :
    (fields.hasKey "Post_ID" = true →
        find_job_objects (Json.obj fields) = [Json.obj fields]) ∧
    (fields.hasKey "Post_ID" = false →
        find_job_objects (Json.obj fields) = findInFields fields) ∧
    (∀ j ∈ find_job_objects d, ∃ fs, j = Json.obj fs ∧ fs.hasKey "Post_ID" = true) ∧
    (∀ x xs, findInItems (JsonItems.cons x xs) =
        find_job_objects x ++ findInItems xs) ∧
    (∀ k v gs, findInFields (JsonFields.cons k v gs) =
        find_job_objects v ++ findInFields gs) ∧
    find_job_objects (applyWraps ws d) = find_job_objects d := by
  refine ⟨?_, ?_, find_collects_id_objs d, ?_, ?_, ?_⟩
  · intro h
    simp [find_job_objects, h]
  · intro h
    simp [find_job_objects, h]
  · intro x xs
    rfl
  · intro k v gs
    rfl
  · exact find_wraps_invariant ws d (fun k hk => hws k hk)

/-- Claim C1 witness: at a concrete matching object, a concrete nested structure,
and a concrete wrapper stack (a list layer under a non-identifier dict key),
the search returns the matching root alone and is unchanged by the wrappers. -/
theorem claim1_recursive_search_witness :
    find_job_objects (jobj [("Post_ID", Json.str "MEM-001-01"),
        ("inner", jobj [("Post_ID", Json.str "X")])]) =
      [jobj [("Post_ID", Json.str "MEM-001-01"),
        ("inner", jobj [("Post_ID", Json.str "X")])]] ∧
    find_job_objects (applyWraps [Wrapper.wobj "data", Wrapper.warr]
        (jobj [("Post_ID", Json.str "A"), ("Cleaned_Text", Json.str "t")])) =
      find_job_objects (jobj [("Post_ID", Json.str "A"),
        ("Cleaned_Text", Json.str "t")]) := by
  have h := claim1_recursive_search
    (JsonFields.cons "Post_ID" (Json.str "MEM-001-01")
      (JsonFields.cons "inner" (jobj [("Post_ID", Json.str "X")]) JsonFields.nil))
    (jobj [("Post_ID", Json.str "A"), ("Cleaned_Text", Json.str "t")])
    [Wrapper.wobj "data", Wrapper.warr]
    (by
      intro k hk
      rcases List.mem_cons.mp hk with h | h
      · injection h with h1
        subst h1
        decide
      · simp at h)
  exact ⟨h.1 (by decide), h.2.2.2.2.2⟩

/-- Claim C10: the recursive search is total on every finite JSON value — it
returns a list no longer than the node count of its input — and structural
recursion imposes no depth limit: the search penetrates any finite nesting
depth unchanged. -/
theorem claim10_search_total (d : Json) (n : Nat) :
    (find_job_objects d).length ≤ jsonSize d ∧
    find_job_objects (nestArr n d) = find_job_objects d :=
  ⟨find_length_le d, find_nestArr n d⟩

/-- Claim C2 counterexample: parser4's pipeline validates only that `Post_ID`
is a string, so an empty-string identifier (neither non-empty nor of the
form `MEM-###-##`) is emitted unchanged; and parser3's `process_chunk`
checks no identifier at all — it emits a record with no `Post_ID` key, and a
record whose `Post_ID` is JSON `null`. -/
theorem claim2_pattern_counterexample :
    (process_chunk [] (fun _ => ChatResult.response (some (jobj
        [("Post_ID", Json.str ""), ("Cleaned_Text", Json.str "t")])))).map
      (fun j => j.Post_ID) = [""] ∧
    matchesMemId "" = false ∧
    (parser3_process_chunk [] (jobj [("jobs", jarr
        [jobj [("Title_Parsed", Json.str "Aide")]])])).map
      (fun fs => fs.hasKey "Post_ID") = [false] ∧
    (parser3_process_chunk [] (jobj [("jobs", jarr
        [jobj [("Post_ID", Json.null), ("Title_Parsed", Json.str "Aide")]])])).map
      (fun fs => fs.get "Post_ID") = [some Json.null] := by
  refine ⟨rfl, rfl, rfl, rfl⟩

/-- Claim C2 amended: in parser4's pipeline, every emitted record owes its
identifier to a collected candidate object in the decoded response of some
attempt that carries the identifier key with exactly that string value, so a
parser4 record is never emitted with a null or missing identifier — but the
string is not checked against the `MEM-###-##` pattern and may even be
empty.  parser3's emission path, by contrast, checks no identifier at all:
the records it emits are exactly the enriched dict candidates of the
unwrapped response, whether or not they carry a (non-null) `Post_ID`. -/
theorem claim2_identifier_provenance (scores : ScoresMap)
    (responses : Nat → ChatResult) (job : Job) (parsed : Json)
    (h : job ∈ process_chunk scores responses) :
    (∃ i data fs, i < MAX_RETRIES ∧
      responses i = ChatResult.response (some data) ∧
      Json.obj fs ∈ find_job_objects data ∧
      fs.hasKey "Post_ID" = true ∧
      fs.get "Post_ID" = some (Json.str job.Post_ID)) ∧
    (∀ gs, gs ∈ parser3_process_chunk scores parsed ↔
      ∃ c, Json.obj c ∈ parser3_job_list parsed ∧ gs = enrich3 scores c) := by
  constructor
  · rcases process_chunkAux_mem scores responses MAX_RETRIES 0 job h with
      ⟨k, r, jobs, hk0, hkM, hresp, hatt, hjob⟩
    rcases attemptJobs_mem scores r jobs hatt job hjob with
      ⟨data, rfl, c, hc, j0, hval, rfl⟩
    rcases model_validate_pid c j0 hval with ⟨fs, rfl, hpid⟩
    rcases find_collects_id_objs data _ hc with ⟨fs2, heq, hkey⟩
    refine ⟨k, data, fs, by omega, hresp, hc, ?_, ?_⟩
    · cases heq
      exact hkey
    · rw [enrich4_post_id]
      exact hpid
  · intro gs
    unfold parser3_process_chunk
    rw [List.mem_filterMap]
    constructor
    · rintro ⟨j, hj, hf⟩
      cases j with
      | obj c =>
          dsimp only at hf
          cases hf
          exact ⟨c, hj, rfl⟩
      | null => cases hf
      | bool b => cases hf
      | int n => cases hf
      | float q => cases hf
      | str s => cases hf
      | arr xs => cases hf
    · rintro ⟨c, hc, rfl⟩
      exact ⟨Json.obj c, hc, rfl⟩

/-- Claim C2 witness: a record emitted from a concrete single-candidate
response traces back to that candidate's `Post_ID` string, and a concrete
identifier-free dict candidate is emitted by parser3's path. -/
theorem claim2_identifier_provenance_witness :
    (∃ job ∈ process_chunk [] (fun _ => ChatResult.response (some (jobj
        [("Post_ID", Json.str "MEM-123-45"), ("Cleaned_Text", Json.str "t")]))),
      ∃ i data fs, i < MAX_RETRIES ∧
        (fun _ : Nat => ChatResult.response (some (jobj
          [("Post_ID", Json.str "MEM-123-45"), ("Cleaned_Text", Json.str "t")]))) i
          = ChatResult.response (some data) ∧
        Json.obj fs ∈ find_job_objects data ∧
        fs.hasKey "Post_ID" = true ∧
        fs.get "Post_ID" = some (Json.str job.Post_ID)) ∧
    enrich3 [] (JsonFields.cons "Title_Parsed" (Json.str "Aide") JsonFields.nil)
      ∈ parser3_process_chunk [] (jobj [("jobs", jarr
          [jobj [("Title_Parsed", Json.str "Aide")]])]) := by
  have h := claim2_identifier_provenance []
    (fun _ => ChatResult.response (some (jobj
      [("Post_ID", Json.str "MEM-123-45"), ("Cleaned_Text", Json.str "t")])))
    { Post_ID := "MEM-123-45", Cleaned_Text := "t" }
    (jobj [("jobs", jarr [jobj [("Title_Parsed", Json.str "Aide")]])])
    (by decide)
  constructor
  · exact ⟨{ Post_ID := "MEM-123-45", Cleaned_Text := "t" }, by decide, h.1⟩
  · refine (h.2 _).mpr
      ⟨JsonFields.cons "Title_Parsed" (Json.str "Aide") JsonFields.nil, ?_, rfl⟩
    show Json.obj (JsonFields.cons "Title_Parsed" (Json.str "Aide") JsonFields.nil)
      ∈ [jobj [("Title_Parsed", Json.str "Aide")]]
    exact List.Mem.head _

/-- Claim C3 counterexample: a chunk whose decoded response holds one schema-valid
candidate and one sibling with a wrong-typed optional field (`Salary_Min` as
a list) yields no records at all — the valid sibling is not emitted, so
validation failure is chunk-level, not item-level. -/
theorem claim3_partial_success_counterexample :
    find_job_objects (jobj [("jobs", jarr
        [jobj [("Post_ID", Json.str "MEM-001-01"), ("Cleaned_Text", Json.str "a")],
         jobj [("Post_ID", Json.str "MEM-002-02"), ("Cleaned_Text", Json.str "b"),
               ("Salary_Min", jarr [])]])]) =
      [jobj [("Post_ID", Json.str "MEM-001-01"), ("Cleaned_Text", Json.str "a")],
       jobj [("Post_ID", Json.str "MEM-002-02"), ("Cleaned_Text", Json.str "b"),
             ("Salary_Min", jarr [])]] ∧
    model_validate (jobj [("Post_ID", Json.str "MEM-001-01"),
        ("Cleaned_Text", Json.str "a")]) =
      some { Post_ID := "MEM-001-01", Cleaned_Text := "a" } ∧
    model_validate (jobj [("Post_ID", Json.str "MEM-002-02"),
        ("Cleaned_Text", Json.str "b"), ("Salary_Min", jarr [])]) = none ∧
    process_chunk [] (fun _ => ChatResult.response (some (jobj [("jobs", jarr
        [jobj [("Post_ID", Json.str "MEM-001-01"), ("Cleaned_Text", Json.str "a")],
         jobj [("Post_ID", Json.str "MEM-002-02"), ("Cleaned_Text", Json.str "b"),
               ("Salary_Min", jarr [])]])]))) = [] := by
  refine ⟨rfl, rfl, rfl, rfl⟩

/-- Claim C3 amended: a candidate missing the identifier field is never collected,
hence always rejected; but an attempt succeeds only if every collected
candidate validates, and one invalid candidate (e.g. a wrong-typed optional
field) makes every attempt on that response fail, so the whole chunk yields
nothing — parser4 has no item-level partial success. -/
theorem claim3_chunk_failure (scores : ScoresMap) (data : Json) :
    (∀ c ∈ find_job_objects data, ∃ fs, c = Json.obj fs ∧
        fs.hasKey "Post_ID" = true) ∧
    (∀ jobs, attemptJobs scores (some data) = some jobs →
        ∀ c ∈ find_job_objects data, ∃ j, model_validate c = some j) ∧
    ((∃ c ∈ find_job_objects data, model_validate c = none) →
        ∀ responses : Nat → ChatResult,
          (∀ i, responses i = ChatResult.response (some data)) →
          process_chunk scores responses = []) := by
  refine ⟨find_collects_id_objs data, ?_, ?_⟩
  · intro jobs hatt c hc
    unfold attemptJobs at hatt
    dsimp only at hatt
    by_cases he : (find_job_objects data).isEmpty
    · rw [if_pos he] at hatt
      cases hatt
    · rw [if_neg he] at hatt
      cases hv : validateAll (find_job_objects data) with
      | none => rw [hv] at hatt; cases hatt
      | some validated => exact validateAll_forall _ _ hv c hc
  · intro hex responses hall
    rcases hex with ⟨c, hc, hcv⟩
    have hnone : attemptJobs scores (some data) = none := by
      unfold attemptJobs
      dsimp only
      by_cases he : (find_job_objects data).isEmpty
      · rw [if_pos he]
      · rw [if_neg he, validateAll_none _ c hc hcv]
    have := process_chunkAux_all_fail scores responses MAX_RETRIES 0
      (fun k _ _ => ⟨some data, hall k, hnone⟩)
    unfold process_chunk
    rw [this]

/-- Claim C3 witness: with the two-candidate response above supplied on every
attempt, the chunk yields no records even though one candidate is valid. -/
theorem claim3_chunk_failure_witness :
    process_chunk [] (fun _ => ChatResult.response (some (jobj [("items", jarr
        [jobj [("Post_ID", Json.str "MEM-003-03"), ("Cleaned_Text", Json.str "a")],
         jobj [("Post_ID", Json.str "MEM-004-04"), ("Cleaned_Text", Json.str "b"),
               ("Qualifications", Json.int 7)]])]))) = [] := by
  refine (claim3_chunk_failure [] _).2.2 ?_ _ (fun i => rfl)
  refine ⟨jobj [("Post_ID", Json.str "MEM-004-04"), ("Cleaned_Text", Json.str "b"),
    ("Qualifications", Json.int 7)], ?_, by decide⟩
  show jobj [("Post_ID", Json.str "MEM-004-04"), ("Cleaned_Text", Json.str "b"),
      ("Qualifications", Json.int 7)] ∈
    [jobj [("Post_ID", Json.str "MEM-003-03"), ("Cleaned_Text", Json.str "a")],
     jobj [("Post_ID", Json.str "MEM-004-04"), ("Cleaned_Text", Json.str "b"),
       ("Qualifications", Json.int 7)]]
  exact List.Mem.tail _ (List.Mem.head _)

/-- Claim C4: with `MAX_RETRIES = 3`, if the first two attempts fail retryably
(undecodable response, no records found, or validation failure), then a
successful third attempt makes the chunk return that attempt's records after
exactly three calls, and a third retryable failure makes it return the empty
result after exactly three calls — without raising (the loop catches every
listed exception and falls through to `return []`). -/
theorem claim4_retry_controller (scores : ScoresMap)
    (responses : Nat → ChatResult) (r0 r1 : Option Json)
    (h0 : responses 0 = ChatResult.response r0)
    (h0f : attemptJobs scores r0 = none)
    (h1 : responses 1 = ChatResult.response r1)
    (h1f : attemptJobs scores r1 = none) :
    (∀ r2 jobs, responses 2 = ChatResult.response r2 →
        attemptJobs scores r2 = some jobs →
        process_chunk scores responses = jobs ∧
          process_chunk_calls scores responses = MAX_RETRIES) ∧
    (∀ r2, responses 2 = ChatResult.response r2 →
        attemptJobs scores r2 = none →
        process_chunk scores responses = [] ∧
          process_chunk_calls scores responses = MAX_RETRIES) := by
  have c0 : process_chunkAux scores responses 3 0
      = process_chunkAux scores responses 2 1 :=
    process_chunkAux_fail_step scores responses 2 0 r0 h0 h0f
  have c1 : process_chunkAux scores responses 2 1
      = process_chunkAux scores responses 1 2 :=
    process_chunkAux_fail_step scores responses 1 1 r1 h1 h1f
  constructor
  · intro r2 jobs h2 h2s
    have c2 : process_chunkAux scores responses 1 2 = (jobs, 3) :=
      process_chunkAux_ok_step scores responses 0 2 r2 jobs h2 h2s
    have call : process_chunkAux scores responses 3 0 = (jobs, 3) :=
      (c0.trans c1).trans c2
    constructor
    · show (process_chunkAux scores responses 3 0).1 = jobs
      rw [call]
    · show (process_chunkAux scores responses 3 0).2 = 3
      rw [call]
  · intro r2 h2 h2f
    have c2 : process_chunkAux scores responses 1 2
        = process_chunkAux scores responses 0 3 :=
      process_chunkAux_fail_step scores responses 0 2 r2 h2 h2f
    have call : process_chunkAux scores responses 3 0 = ([], 3) :=
      (c0.trans c1).trans c2
    constructor
    · show (process_chunkAux scores responses 3 0).1 = []
      rw [call]
    · show (process_chunkAux scores responses 3 0).2 = 3
      rw [call]

/-- Claim C4 witness: with two undecodable responses then a good one, the chunk
returns the third attempt's record after three calls; with three undecodable
responses, it returns empty after three calls. -/
theorem claim4_retry_controller_witness :
    (process_chunk [] (fun i => ChatResult.response (if i < 2 then none
        else some (jobj [("Post_ID", Json.str "MEM-007-07"),
          ("Cleaned_Text", Json.str "t")])))
      = [{ Post_ID := "MEM-007-07", Cleaned_Text := "t" }] ∧
     process_chunk_calls [] (fun i => ChatResult.response (if i < 2 then none
        else some (jobj [("Post_ID", Json.str "MEM-007-07"),
          ("Cleaned_Text", Json.str "t")])))
      = MAX_RETRIES) ∧
    (process_chunk [] (fun _ => ChatResult.response none) = [] ∧
     process_chunk_calls [] (fun _ => ChatResult.response none) = MAX_RETRIES) := by
  constructor
  · exact (claim4_retry_controller [] _ none none rfl rfl rfl rfl).1
      (some (jobj [("Post_ID", Json.str "MEM-007-07"),
        ("Cleaned_Text", Json.str "t")]))
      [{ Post_ID := "MEM-007-07", Cleaned_Text := "t" }] rfl (by decide)
  · exact (claim4_retry_controller [] _ none none rfl rfl rfl rfl).2 none rfl rfl

/-- Claim C5: every chunk the segmenter emits begins with the delimiter token
`MEM-` (the zero-width boundary sits immediately before an occurrence), is
already whitespace-trimmed and non-empty, and contains no further delimiter
occurrence past its start (so the text was split before every occurrence);
moreover the fragment before the first occurrence is discarded and the
emitted sequence is the order-preserving trimmed, non-empty remainder. -/
theorem claim5_segmenter (text : List Char) :
    (∀ c ∈ split_into_job_chunks text,
        c.take 4 = memTok ∧ pystrip c = c ∧ c ≠ [] ∧
          ∀ j, 1 ≤ j → memPre (c.drop j) = false) ∧
    preB text ++ (tailFrags text).flatten = text ∧
    split_into_job_chunks text =
      ((tailFrags text).map pystrip).filter (fun c => !c.isEmpty) := by
  refine ⟨?_, ?_, split_chunks_eq text⟩
  · intro c hc
    rcases chunk_from_frag text c hc with ⟨f, hf, hcf, hne⟩
    refine ⟨?_, ?_, hne, ?_⟩
    · rw [hcf]
      exact pystrip_take4 f (tailFrags_take4 text f hf)
    · rw [hcf]
      exact pystrip_idem f
    · exact chunk_no_internal text c hc
  · have hj := splitAux_join text []
    rw [splitAux_eq] at hj
    simpa using hj

/-- Claim C5 witness: on a concrete document with front matter, the single emitted
chunk starts with the token, is trimmed, non-empty, and has no internal
occurrence at offset 1. -/
theorem claim5_segmenter_witness :
    "MEM-a".toList.take 4 = memTok ∧
    pystrip "MEM-a".toList = "MEM-a".toList ∧
    "MEM-a".toList ≠ [] ∧
    memPre ("MEM-a".toList.drop 1) = false := by
  have h := (claim5_segmenter "junkMEM-a ".toList).1 "MEM-a".toList (by decide)
  exact ⟨h.1, h.2.1, h.2.2.1, h.2.2.2 1 (by decide)⟩

/-- Claim C6 counterexample: for `"MEM-a MEM-b"` nothing precedes the first
delimiter occurrence, yet re-joining the chunks yields `"MEM-aMEM-b"`: the
space trimmed from the first chunk's end is lost, so re-joining does not
reproduce the text minus only the pre-delimiter prefix. -/
theorem claim6_rejoin_counterexample :
    preB "MEM-a MEM-b".toList = [] ∧
    (split_into_job_chunks "MEM-a MEM-b".toList).flatten = "MEM-aMEM-b".toList ∧
    ¬ (split_into_job_chunks "MEM-a MEM-b".toList).flatten =
        ("MEM-a MEM-b".toList).drop (preB "MEM-a MEM-b".toList).length := by
  refine ⟨rfl, rfl, by decide⟩

/-- Claim C6 amended: the untrimmed fragments from the first occurrence on, in
order, concatenate with the discarded pre-first-occurrence prefix to
reproduce the text exactly; each emitted chunk is its fragment minus only
trailing whitespace (all-whitespace fragments are dropped), so re-joining
the chunks reproduces the original minus the documented lossy prefix and
minus the whitespace trimmed at chunk edges — no other characters are lost
or altered. -/
theorem claim6_rejoin_amended (text : List Char) :
    preB text ++ (tailFrags text).flatten = text ∧
    (∀ j, j < (preB text).length → memPre (text.drop j) = false) ∧
    (memPre (text.drop (preB text).length) = true ∨ preB text = text) ∧
    split_into_job_chunks text =
      ((tailFrags text).map pystrip).filter (fun c => !c.isEmpty) ∧
    ∀ f ∈ tailFrags text, ∃ w2, (∀ ch ∈ w2, isPySpace ch = true) ∧
      f = pystrip f ++ w2 := by
  refine ⟨?_, (preB_first text).1, (preB_first text).2, split_chunks_eq text, ?_⟩
  · have hj := splitAux_join text []
    rw [splitAux_eq] at hj
    simpa using hj
  · intro f hf
    rcases pystrip_decomp f with ⟨w1, w2, hw1, hw2, hdec, hsuf⟩
    have htok := tailFrags_take4 text f hf
    have hfM : f = 'M' :: ('E' :: ('M' :: ('-' :: f.drop 4))) := by
      have := List.take_append_drop 4 f
      rw [htok] at this
      exact this.symm
    have hl : f.dropWhile isPySpace = f := by
      conv_lhs => rw [hfM]
      conv_rhs => rw [hfM]
      exact List.dropWhile_cons_of_neg (by intro hx; cases hx)
    refine ⟨w2, hw2, ?_⟩
    conv_lhs => rw [← hl]
    exact hsuf

/-- Claim C6 witness: for `"xMEM-a "` the prefix `"x"` plus the untrimmed fragment
rebuilds the text, no occurrence starts inside the prefix, the first
occurrence follows it, and the single fragment is its chunk plus a trailing
space. -/
theorem claim6_rejoin_amended_witness :
    preB "xMEM-a ".toList ++ (tailFrags "xMEM-a ".toList).flatten
      = "xMEM-a ".toList ∧
    memPre ("xMEM-a ".toList.drop 0) = false ∧
    (memPre ("xMEM-a ".toList.drop (preB "xMEM-a ".toList).length) = true ∨
      preB "xMEM-a ".toList = "xMEM-a ".toList) ∧
    split_into_job_chunks "xMEM-a ".toList =
      ((tailFrags "xMEM-a ".toList).map pystrip).filter (fun c => !c.isEmpty) := by
  have h := claim6_rejoin_amended "xMEM-a ".toList
  exact ⟨h.1, h.2.1 0 (by decide), h.2.2.1, h.2.2.2.1⟩

/-- Claim C7: the score lookup table is populated from exactly the rows whose
session number equals the maximum session present — every map entry's key and
value come from such a row, every such row's key is present in the map, and a
key carried only by other-session rows gets no entry. -/
theorem claim7_session_filter (rows : List ScoreRow) (mx : Int)
    (hmx : maxCongress rows = some mx) :
    (∀ k v, mapLookup (load_scores_from_excel rows) k = some v →
        ∃ r, r ∈ rows ∧ r.congress = mx ∧ districtKey r = k ∧
          v = (r.dw_nominate, r.les)) ∧
    (∀ r ∈ rows, r.congress = mx →
        (mapLookup (load_scores_from_excel rows) (districtKey r)).isSome = true) ∧
    (∀ k, (∀ r ∈ rows, districtKey r = k → ¬ r.congress = mx) →
        mapLookup (load_scores_from_excel rows) k = none) := by
  have hload : ∀ k, mapLookup (load_scores_from_excel rows) k =
      match (rows.filter (fun r => some r.congress == maxCongress rows)).reverse.find?
          (fun r => districtKey r == k) with
      | some r => some (r.dw_nominate, r.les)
      | none => none := by
    intro k
    unfold load_scores_from_excel
    exact mapLookup_fold _ [] k
  have hfiltmem : ∀ r, r ∈ rows.filter (fun r => some r.congress == maxCongress rows)
      ↔ (r ∈ rows ∧ r.congress = mx) := by
    intro r
    rw [List.mem_filter, hmx]
    constructor
    · rintro ⟨h1, h2⟩
      refine ⟨h1, ?_⟩
      have := beq_iff_eq.mp h2
      exact Option.some_inj.mp this
    · rintro ⟨h1, h2⟩
      exact ⟨h1, beq_iff_eq.mpr (by rw [h2])⟩
  refine ⟨?_, ?_, ?_⟩
  · intro k v hkv
    rw [hload k] at hkv
    cases hfind : (rows.filter
        (fun r => some r.congress == maxCongress rows)).reverse.find?
        (fun r => districtKey r == k) with
    | none => rw [hfind] at hkv; cases hkv
    | some r =>
        rw [hfind] at hkv
        have hrmem : r ∈ rows ∧ r.congress = mx :=
          (hfiltmem r).mp (List.mem_reverse.mp (List.mem_of_find?_eq_some hfind))
        have hrk : districtKey r = k := by
          have := List.find?_some hfind
          simpa using this
        exact ⟨r, hrmem.1, hrmem.2, hrk, by cases hkv; rfl⟩
  · intro r hr hrc
    rw [hload (districtKey r)]
    have hmem : r ∈ (rows.filter
        (fun r => some r.congress == maxCongress rows)).reverse :=
      List.mem_reverse.mpr ((hfiltmem r).mpr ⟨hr, hrc⟩)
    have hex : ∃ x ∈ (rows.filter
        (fun r => some r.congress == maxCongress rows)).reverse,
        (districtKey x == districtKey r) = true := ⟨r, hmem, beq_iff_eq.mpr rfl⟩
    rcases Option.isSome_iff_exists.mp (List.find?_isSome.mpr hex) with ⟨q, hq⟩
    rw [hq]
    rfl
  · intro k hnone
    rw [hload k]
    have hfind : (rows.filter
        (fun r => some r.congress == maxCongress rows)).reverse.find?
        (fun r => districtKey r == k) = none := by
      rw [List.find?_eq_none]
      intro x hx hxk
      have hxm := (hfiltmem x).mp (List.mem_reverse.mp hx)
      exact hnone x hxm.1 (by simpa using hxk) hxm.2
    rw [hfind]

/-- Claim C7 witness: with rows from sessions 116, 117 and 118, only the
session-118 rows populate the map: the 118 row's key is present and the key
carried only by the 116/117 rows is absent. -/
theorem claim7_session_filter_witness :
    (mapLookup (load_scores_from_excel
        [⟨"CA", 51, 116, 1, 2⟩, ⟨"TX", 2, 117, 5, 6⟩, ⟨"CA", 51, 118, 3, 4⟩])
      "CA-51").isSome = true ∧
    mapLookup (load_scores_from_excel
        [⟨"CA", 51, 116, 1, 2⟩, ⟨"TX", 2, 117, 5, 6⟩, ⟨"CA", 51, 118, 3, 4⟩])
      "TX-2" = none := by
  have h := claim7_session_filter
    [⟨"CA", 51, 116, 1, 2⟩, ⟨"TX", 2, 117, 5, 6⟩, ⟨"CA", 51, 118, 3, 4⟩]
    118 (by decide)
  constructor
  · exact h.2.1 ⟨"CA", 51, 118, 3, 4⟩ (by decide) rfl
  · exact h.2.2 "TX-2" (by decide)

/-- Claim C8 counterexample: with no `State_District` key in the candidate (the
key field is absent) and model-supplied score values, parser4's pipeline
emits the record with those values — the two score fields are not set to the
absence marker on a miss, because the enrichment has no else branch. -/
theorem claim8_null_on_miss_counterexample :
    (process_chunk [] (fun _ => ChatResult.response (some (jobj
        [("Post_ID", Json.str "MEM-009-09"), ("Cleaned_Text", Json.str "t"),
         ("DW_NOMINATE", Json.float 1), ("LES", Json.float 2)])))).map
      (fun j => (j.DW_NOMINATE, j.LES)) = [(some 1, some 2)] ∧
    ¬ ((some (1 : Rat), some (2 : Rat)) = ((none : Option Rat), (none : Option Rat))) := by
  exact ⟨rfl, by decide⟩

/-- Claim C8 amended: enrichment is a pure function of record and table.  In
parser4, a hit sets both score fields from the matched entry, and a miss or
absent key leaves the record unchanged (so validated values, `null` by
default, survive).  In parser3, both fields are always present after
enrichment: the matched values on a hit and the explicit `null` marker on a
miss or absent/falsy key — never unset and never an exception. -/
theorem claim8_enrichment (m : ScoresMap) (job : Job) (fs : JsonFields) :
    (∀ s dw les, job.State_District = some s → ¬ s = "" →
        mapLookup m s = some (dw, les) →
        enrich4 m job = { job with DW_NOMINATE := some dw, LES := some les }) ∧
    ((job.State_District = none ∨
        ∃ s, job.State_District = some s ∧ (s = "" ∨ mapLookup m s = none)) →
      enrich4 m job = job) ∧
    ((enrich3 m fs).get "DW-NOMINATE").isSome = true ∧
    ((enrich3 m fs).get "LES").isSome = true ∧
    (∀ dw les, districtHit m fs = some (dw, les) →
        (enrich3 m fs).get "DW-NOMINATE" = some (Json.float dw) ∧
        (enrich3 m fs).get "LES" = some (Json.float les)) ∧
    (districtHit m fs = none →
        (enrich3 m fs).get "DW-NOMINATE" = some Json.null ∧
        (enrich3 m fs).get "LES" = some Json.null) := by
  have h3 := enrich3_spec m fs
  exact ⟨fun s dw les h1 h2 hl => enrich4_hit m job s dw les h1 h2 hl,
    fun h => enrich4_miss m job h, h3.1, h3.2.1, h3.2.2.1, h3.2.2.2⟩

/-- Claim C8 witness: a concrete hit fills parser4's fields from the table; a
concrete parser3 record with no `State_District` gets explicit nulls. -/
theorem claim8_enrichment_witness :
    enrich4 [("CA-51", ((5 : Rat), (3 : Rat)))]
        { Post_ID := "MEM-005-05", State_District := some "CA-51",
          Cleaned_Text := "t" } =
      { Post_ID := "MEM-005-05", State_District := some "CA-51",
        Cleaned_Text := "t", DW_NOMINATE := some (5 : Rat),
        LES := some (3 : Rat) } ∧
    (enrich3 [] (JsonFields.cons "Post_ID" (Json.str "MEM-006-06")
        JsonFields.nil)).get "DW-NOMINATE" = some Json.null ∧
    (enrich3 [] (JsonFields.cons "Post_ID" (Json.str "MEM-006-06")
        JsonFields.nil)).get "LES" = some Json.null := by
  have h := claim8_enrichment [("CA-51", ((5 : Rat), (3 : Rat)))]
    { Post_ID := "MEM-005-05", State_District := some "CA-51", Cleaned_Text := "t" }
    (JsonFields.cons "Post_ID" (Json.str "MEM-006-06") JsonFields.nil)
  have hmiss := h.2.2.2.2.2 (by decide)
  exact ⟨h.1 "CA-51" (5 : Rat) 3 rfl (by decide) (by decide),
    hmiss.1, hmiss.2⟩

/-- Claim C9 counterexample: parser4's `main` writes the per-document output file
unconditionally — an empty result set still produces a written (empty) JSON
array and no no-data notice. -/
theorem claim9_empty_file_counterexample :
    parser4_main_output [] = (some [], false) ∧
    ¬ (parser4_main_output [] = (none, true)) := by
  exact ⟨rfl, by decide⟩

/-- Claim C9 amended: newparser's entry point behaves as claimed — an empty final
dataset produces the no-data notice and no file, a non-empty one a written
file and no notice — but parser4's `main` writes each per-document file
unconditionally, including an empty array, with no notice. -/
theorem claim9_no_data_notice {α : Type} (ds : List α) (jobs : List Job) :
    (ds = [] → newparser_main_output ds = (none, true)) ∧
    (¬ ds = [] → newparser_main_output ds = (some ds, false)) ∧
    parser4_main_output jobs = (some jobs, false) := by
  refine ⟨?_, ?_, rfl⟩
  · intro h
    subst h
    rfl
  · intro h
    unfold newparser_main_output
    rw [if_neg (by simpa using h)]

/-- Claim C9 witness: at a concrete empty and non-empty dataset. -/
theorem claim9_no_data_notice_witness :
    newparser_main_output ([] : List Nat) = (none, true) ∧
    newparser_main_output [7] = (some [7], false) ∧
    parser4_main_output [] = (some [], false) := by
  refine ⟨(claim9_no_data_notice [] []).1 rfl, ?_, (claim9_no_data_notice [7] []).2.2⟩
  exact (claim9_no_data_notice [7] []).2.1 (by decide)

end HouseJobs
